import Mathlib

/-!
Verification model of PVAnalysis.py (PyPeVoc): phase-vocoder frame analysis
and sinusoidal partial tracking.

Modelling conventions, used throughout:
* Python/NumPy floating point numbers are idealised as exact rationals.
  Float literals from the source (17.312, 20/ln 10, 2*pi) are embedded as the
  exact decimal value of the corresponding IEEE double.
* Python 2 integer division is `Int.fdiv` (floor division).
* `np.round` rounds half to even (`npRound`); Python 2 `round` rounds half
  away from zero (`pyRound`).
* Exceptions (ZeroDivisionError, IndexError, ValueError) are modelled with
  `Except Unit` or explicit error constructors.
* The identifier `partial` is a reserved word in Lean, so the source's
  RegPartial/partial-list names appear here as `RegPart`/`parts`; otherwise
  source names are kept.
-/

/-- np.round semantics: round half to even, as used for the wrapping factor
`wfbin` and the harmonic candidate bins. -/
def npRound (q : ℚ) : ℤ :=
  let f := ⌊q⌋
  let r := q - f
  if r < 1/2 then f
  else if 1/2 < r then f + 1
  else if Even f then f else f + 1

/-- Python 2 round semantics: round half away from zero, as in
`int(round(corrbin))` and `np.arange(round(tmin*sr), round(tmax*sr))`. -/
def pyRound (q : ℚ) : ℤ :=
  if 0 ≤ q then ⌊q + 1/2⌋ else -⌊-q + 1/2⌋

/-- Source line `pi2 = 2.0*np.pi`: the IEEE double closest to 2π. -/
def pi2 : ℚ := 6283185307179586 / 1000000000000000

/-- Source line `dbconst = 20./np.log(10)`: the IEEE double value of 20/ln 10,
used by the linearised decibel distance in SinSum.add_frame. -/
def dbconst : ℚ := 8685889638065035 / 1000000000000000

/-- Source dpitch2st: approximate semitone distance
`17.312*(float(f2)/f1-1.0)`. -/
def dpitch2st (f1 f2 : ℚ) : ℚ := 17312/1000 * (f2 / f1 - 1)

/-- Frequency step between bins, `self.fstep = float(self.sr)/float(self.nfft)`. -/
def fstepD (sr nfft : ℤ) : ℚ := (sr : ℚ) / (nfft : ℚ)

/-- Time difference between frames, `self.dt = float(self.hop)/float(self.sr)`. -/
def dtD (sr hop : ℤ) : ℚ := (hop : ℚ) / (sr : ℚ)

/-- Central frequency of bin b, `self.fbin = np.arange(float(nfft))*self.fstep`,
written as a function of the bin index. -/
def fbinD (sr nfft : ℤ) (b : ℤ) : ℚ := (b : ℚ) * fstepD sr nfft

/-- Wrapping factor for bin b times 2π:
`self.wfbin = np.round(pi2*self.fbin*self.dt/pi2) * pi2`. -/
def wfbinD (sr nfft hop : ℤ) (b : ℤ) : ℚ :=
  (npRound (fbinD sr nfft b * dtD sr hop) : ℚ) * pi2

/-- np.abs on a scalar, written with an explicit sign test. -/
def npAbs (q : ℚ) : ℚ := if q < 0 then -q else q

/-- np.argmin: index of the first occurrence of the minimum.
Arguments: remaining list, current best index, current best value, index of
the next element. -/
def argminAux : List ℚ → ℕ → ℚ → ℕ → ℕ
  | [], best, _, _ => best
  | x :: xs, best, bestv, i =>
      if x < bestv then argminAux xs i x (i+1) else argminAux xs best bestv (i+1)

/-- np.argmin over a list (0 on the empty list; np.argmin raises there, and
every use in the model is on a nonempty list). -/
def argminList : List ℚ → ℕ
  | [] => 0
  | x :: xs => argminAux xs 0 x 1

/-- np.argmax: index of the first occurrence of the maximum. -/
def argmaxAux : List ℚ → ℕ → ℚ → ℕ → ℕ
  | [], best, _, _ => best
  | x :: xs, best, bestv, i =>
      if bestv < x then argmaxAux xs i x (i+1) else argmaxAux xs best bestv (i+1)

/-- np.argmax over a list (0 on the empty list; the model checks emptiness
where the source would raise). -/
def argmaxList : List ℚ → ℕ
  | [] => 0
  | x :: xs => argmaxAux xs 0 x 1

/-- PV.dphase2freq: build the three unwrap candidates
`dph + wfbin[nbin] + pi2*np.arange(-1,2)`, convert each to a frequency
`dphw / dt / pi2`, and return the candidate whose frequency is nearest
(np.argmin of the absolute distance) to the bin's central frequency. -/
def dphase2freq (sr nfft hop : ℤ) (dph : ℚ) (nbin : ℤ) : ℚ :=
  let dphw := [dph + wfbinD sr nfft hop nbin + pi2 * (-1),
               dph + wfbinD sr nfft hop nbin + pi2 * 0,
               dph + wfbinD sr nfft hop nbin + pi2 * 1]
  let freq := dphw.map (fun x => x / dtD sr hop / pi2)
  let ii := argminList (freq.map (fun q => npAbs (fbinD sr nfft nbin - q)))
  freq.getD ii 0

/-- Result of a Python numeric query that can also produce the NaN sentinel
or raise an IndexError. -/
inductive PyVal where
  | val (q : ℚ)
  | nan
  | err
deriving DecidableEq, Repr

/-- Model of RegPartial (PVAnalysis.py): a quasi-sinusoidal component with
homogeneous frame sampling. (`RegPart` because the source name contains a
Lean reserved word.) -/
structure RegPart where
  start_idx : ℤ
  f : List ℚ
  mag : List ℚ
  ph : List ℚ
deriving DecidableEq, Repr

/-- RegPartial.append_point: add a single point to the end. -/
def RegPart.append_point (p : RegPart) (f mag ph : ℚ) : RegPart :=
  { p with f := p.f ++ [f], mag := p.mag ++ [mag], ph := p.ph ++ [ph] }

/-- RegPartial.get_freq_at_frame: `relidx = fr - start_idx`; for
`relidx >= 0` return `self.f[relidx]` (IndexError when relidx is past the
stored series), else the NaN sentinel. -/
def RegPart.get_freq_at_frame (p : RegPart) (fr : ℤ) : PyVal :=
  let relidx := fr - p.start_idx
  if 0 ≤ relidx then
    match p.f.get? relidx.toNat with
    | some v => .val v
    | none => .err
  else .nan

/-- RegPartial.get_mag_at_frame: same shape as get_freq_at_frame on the
magnitude series. -/
def RegPart.get_mag_at_frame (p : RegPart) (fr : ℤ) : PyVal :=
  let relidx := fr - p.start_idx
  if 0 ≤ relidx then
    match p.mag.get? relidx.toNat with
    | some v => .val v
    | none => .err
  else .nan

/-- Numeric use of get_freq_at_frame inside add_frame; every such use is on a
track ending at the queried frame, where the query yields a value. -/
def RegPart.freqVal (p : RegPart) (fr : ℤ) : ℚ :=
  match p.get_freq_at_frame fr with
  | .val v => v
  | _ => 0

/-- Numeric use of get_mag_at_frame inside add_frame. -/
def RegPart.magVal (p : RegPart) (fr : ℤ) : ℚ :=
  match p.get_mag_at_frame fr with
  | .val v => v
  | _ => 0

/-- Model of SinSum (PVAnalysis.py): the list of tracks plus the parallel
start/end arrays, and the configuration stored at construction. -/
structure SinSum where
  parts : List RegPart
  st : List ℤ
  end_ : List ℤ
  sr : ℤ
  nfft : ℤ
  hop : ℤ
deriving DecidableEq, Repr

/-- SinSum.__init__. -/
def sinSumInit (sr nfft hop : ℤ) : SinSum := ⟨[], [], [], sr, nfft, hop⟩

/-- SinSum.add_empty_partial: append a track starting and ending at idx. -/
def SinSum.addEmptyPart (ss : SinSum) (idx : ℤ) : SinSum :=
  { ss with parts := ss.parts ++ [⟨idx, [], [], []⟩],
            st := ss.st ++ [idx],
            end_ := ss.end_ ++ [idx] }

/-- Python list element assignment `l[i] = a`, with Python's negative-index
convention (only -1 and valid non-negative indices occur in the source). -/
def pySet {α : Type} (l : List α) (i : ℤ) (a : α) : List α :=
  if 0 ≤ i then l.set i.toNat a else l.set (l.length - (-i).toNat) a

/-- Python list read `l[i]` for the non-negative indices used by add_frame
(all in range there). -/
def pyGetPart (ss : SinSum) (i : ℤ) : RegPart :=
  ss.parts.getD i.toNat ⟨0, [], [], []⟩

/-- List filtering by a decidable predicate, written with a propositional
conditional. -/
def pyFilter {α : Type} (pred : α → Prop) [DecidablePred pred] : List α → List α
  | [] => []
  | x :: xs => if pred x then x :: pyFilter pred xs else pyFilter pred xs

/-- SinSum.get_partials_idx_ending_at_frame: indices i with
`fr >= st[i]` and `fr == end[i]` (the source zips the two parallel arrays). -/
def SinSum.getPartsIdxEndingAtFrame (ss : SinSum) (fr : ℤ) : List ℕ :=
  pyFilter (fun i => ss.st.getD i 0 ≤ fr ∧ ss.end_.getD i 0 = fr)
    (List.range (min ss.st.length ss.end_.length))

/-- One (frequency, magnitude, phase) entry of a frame. -/
structure Peak where
  f : ℚ
  mag : ℚ
  ph : ℚ
deriving DecidableEq, Repr

/-- Zip the three parallel per-frame arrays into peak records. -/
def zip3Peaks : List ℚ → List ℚ → List ℚ → List Peak
  | f :: fs, m :: ms, p :: ps => ⟨f, m, p⟩ :: zip3Peaks fs ms ps
  | _, _, _ => []

/-- Order used to model `np.argsort(mag)[::-1]`: a may precede b when its
magnitude is at least b's (the unstable NumPy sort leaves tie order
unspecified; the claims exercised here use distinct magnitudes). -/
def magGE (a b : Peak) : Prop := b.mag ≤ a.mag

instance : DecidableRel magGE := fun a b => inferInstanceAs (Decidable (b.mag ≤ a.mag))

instance : IsTotal Peak magGE := ⟨fun a b => le_total b.mag a.mag⟩

instance : IsTrans Peak magGE := ⟨fun _ _ _ h1 h2 => le_trans h2 h1⟩

/-- A peak survives the add_frame entry filter
`np.logical_and(f[idx]>0, mag[idx]>0)`. -/
def peakPos (p : Peak) : Prop := 0 < p.f ∧ 0 < p.mag

instance : DecidablePred peakPos := fun p =>
  inferInstanceAs (Decidable (0 < p.f ∧ 0 < p.mag))

/-- The peak sequence processed by add_frame: sort by descending magnitude
(argsort + reverse), then keep positive-frequency, positive-magnitude
entries. -/
def processedPeaks (f mag ph : List ℚ) : List Peak :=
  pyFilter peakPos ((zip3Peaks f mag ph).insertionSort magGE)

/-- Descending lexicographic order on (magnitude, index) pairs, modelling
`sorted(zip(pmag, pidx), reverse=True)` (Python tuple comparison). -/
def pairGE (a b : ℚ × ℕ) : Prop := b.1 < a.1 ∨ (a.1 = b.1 ∧ b.2 ≤ a.2)

instance : DecidableRel pairGE := fun a b =>
  inferInstanceAs (Decidable (b.1 < a.1 ∨ (a.1 = b.1 ∧ b.2 ≤ a.2)))

instance : IsTotal (ℚ × ℕ) pairGE := by
  constructor
  intro a b
  rcases lt_trichotomy a.1 b.1 with h | h | h
  · exact Or.inr (Or.inl h)
  · rcases le_total a.2 b.2 with h2 | h2
    · exact Or.inr (Or.inr ⟨h.symm, h2⟩)
    · exact Or.inl (Or.inr ⟨h, h2⟩)
  · exact Or.inl (Or.inl h)

instance : IsTrans (ℚ × ℕ) pairGE := by
  constructor
  rintro a b c (h1 | ⟨h1, h1b⟩) (h2 | ⟨h2, h2b⟩)
  · exact Or.inl (lt_trans h2 h1)
  · exact Or.inl (h2 ▸ h1)
  · exact Or.inl (h1 ▸ h2)
  · exact Or.inr ⟨h1.trans h2, le_trans h2b h1b⟩

/-- NumPy boolean-mask selection `arr[mask]` (arrays of equal length). -/
def maskFilter {α : Type} : List Bool → List α → List α
  | b :: bs, x :: xs => if b = true then x :: maskFilter bs xs else maskFilter bs xs
  | _, _ => []

/-- Append a point to the track at Python index idx (−1 for the track just
created) and record `self.end[idx] = fr`, as at the end of each add_frame
iteration. -/
def SinSum.appendAt (ss : SinSum) (idx : ℤ) (pk : Peak) (fr : ℤ) : SinSum :=
  let j : ℕ := if 0 ≤ idx then idx.toNat else ss.parts.length - (-idx).toNat
  { ss with
      parts := ss.parts.set j ((ss.parts.getD j ⟨0, [], [], []⟩).append_point pk.f pk.mag pk.ph),
      end_ := pySet ss.end_ idx fr }

/-- State of the add_frame matching loop: the evolving SinSum and the
`unused` boolean mask over the sorted open-track arrays. -/
structure AddFrameState where
  ss : SinSum
  unused : List Bool

/-- One iteration of the add_frame peak loop (source lines 638-673).
`allpidx`, `allpmag`, `allpf` are the open tracks sorted by descending
previous-frame magnitude; the iteration selects the still-unused candidates,
matches the peak to the distance-minimising track if the semitone distance is
below maxpitchjmp, and otherwise opens a new track.  The source statement
`unused[nearest] = False` indexes the full mask with a position computed in
the filtered view; the model reproduces this literally. -/
def addFrameStep (fr : ℤ) (maxpitchjmp : ℚ) (allpidx : List ℕ) (allpmag allpf : List ℚ)
    (st : AddFrameState) (pk : Peak) : AddFrameState :=
  let pidx := maskFilter st.unused allpidx
  if 0 < pidx.length then
    let pmag := maskFilter st.unused allpmag
    let pf := maskFilter st.unused allpf
    let stonediff := pf.map (fun ff => npAbs (dpitch2st ff pk.f))
    let dbdiff := pmag.map (fun pm => dbconst * (pm / pk.mag - 1))
    let ovdiff := List.zipWith (fun a b => a + npAbs b) stonediff dbdiff
    let nearest := argminList ovdiff
    if stonediff.getD nearest 0 < maxpitchjmp then
      let idx : ℤ := (pidx.getD nearest 0 : ℕ)
      ⟨(st.ss.appendAt idx pk fr), st.unused.set nearest false⟩
    else
      ⟨(st.ss.addEmptyPart fr).appendAt (-1) pk fr, st.unused⟩
  else
    ⟨(st.ss.addEmptyPart fr).appendAt (-1) pk fr, st.unused⟩

/-- SinSum.add_frame (source lines 611-680): filter and sort the frame's
peaks, collect the tracks ending at fr−1 sorted by descending magnitude at
fr−1, then run the greedy matching loop; with no open tracks every peak opens
a new track. -/
def SinSum.add_frame (ss : SinSum) (fr : ℤ) (f mag ph : List ℚ)
    (maxpitchjmp : ℚ) : SinSum :=
  let peaks := processedPeaks f mag ph
  let pidx0 := ss.getPartsIdxEndingAtFrame (fr - 1)
  if 0 < pidx0.length then
    let pairs := pidx0.map (fun i => ((pyGetPart ss (i : ℕ)).magVal (fr - 1), i))
    let sortedPairs := pairs.insertionSort pairGE
    let allpidx := sortedPairs.map (fun ab => ab.2)
    let allpmag := sortedPairs.map (fun ab => ab.1)
    let allpf := allpidx.map (fun i => (pyGetPart ss (i : ℕ)).freqVal (fr - 1))
    let unused0 := List.replicate allpidx.length true
    (peaks.foldl (addFrameStep fr maxpitchjmp allpidx allpmag allpf) ⟨ss, unused0⟩).ss
  else
    peaks.foldl (fun s pk => (s.addEmptyPart fr).appendAt (-1) pk fr) ss

/-- Configuration fields computed by PV.__init__.  The analysis window and
its normalisation factor `wfact = sqrt(wsum2*nfft)/2` are real-valued and
raise no exception; only the sums derived from the window are kept. -/
structure PVConf where
  nsamp : ℕ
  sr : ℤ
  nfft : ℤ
  nfft2 : ℤ
  hop : ℤ
  npeaks : ℕ
  peakthresh : ℚ
  wsum : ℚ
  wsum2 : ℚ
  fstep : ℚ
  dt : ℚ

/-- PV.__init__ (source lines 63-117).  In source order: `nfft2 = nfft/2`
and the hop default use Python 2 floor division; `fstep = float(sr)/float(nfft)`
raises ZeroDivisionError when nfft = 0; `dt = float(hop)/float(sr)` raises
when sr = 0; `oldfft = np.zeros(nfft2)` raises ValueError when nfft2 < 0.
No other validation is performed. -/
def pvInit (x : List ℚ) (sr nfft : ℤ) (hop : Option ℤ) (npks : ℕ)
    (pkthresh : ℚ) (wind : ℤ → List ℚ) : Except Unit PVConf :=
  let nfft2 := Int.fdiv nfft 2
  let hopv := hop.getD (Int.fdiv nfft 2)
  let win := wind nfft
  let wsum := win.foldl (· + ·) 0
  let wsum2 := (win.map (fun w => w * w)).foldl (· + ·) 0
  if nfft = 0 then .error ()
  else if sr = 0 then .error ()
  else if nfft2 < 0 then .error ()
  else .ok { nsamp := x.length, sr := sr, nfft := nfft, nfft2 := nfft2,
             hop := hopv, npeaks := npks, peakthresh := pkthresh,
             wsum := wsum, wsum2 := wsum2,
             fstep := fstepD sr nfft, dt := dtD sr hopv }

/-- A window usable as the `wind` argument of the analyser (np.ones). -/
def onesWind (n : ℤ) : List ℚ := List.replicate n.toNat 1

/-- Write a frame's peak list into a fixed-width row:
`f = np.zeros(npeaks); f[0:len(ff)] = ff` (the source only ever stores
lists of at most npeaks entries). -/
def padTo (npeaks : ℕ) (l : List ℚ) : List ℚ :=
  l.take npeaks ++ List.replicate (npeaks - l.length) 0

/-- One output row of PV.run_pv: analysis position, frame time
`(pos + nfft/2.0)/sr`, and the zero-padded frequency/magnitude/phase rows. -/
structure PVRow where
  pos : ℤ
  t : ℚ
  f : List ℚ
  mag : List ℚ
  ph : List ℚ

/-- The while loop of PV.run_pv, with the per-frame spectral computation
abstracted as `frameF` (it returns the three lists produced by
calc_pv_frame at a position).  The fuel argument bounds the iteration count;
for hop ≥ 1 it is large enough to exhaust the loop (for hop ≤ 0 the Python
loop would not terminate). -/
def runPvLoop (frameF : ℤ → List ℚ × List ℚ × List ℚ) (npeaks : ℕ)
    (nfft sr maxpos hop : ℤ) : ℕ → ℤ → List PVRow
  | 0, _ => []
  | fuel + 1, cur =>
      if cur < maxpos then
        let r := frameF cur
        { pos := cur, t := ((cur : ℚ) + (nfft : ℚ)/2) / (sr : ℚ),
          f := padTo npeaks r.1, mag := padTo npeaks r.2.1,
          ph := padTo npeaks r.2.2 } ::
          runPvLoop frameF npeaks nfft sr maxpos hop fuel (cur + hop)
      else []

/-- PV.run_pv (source lines 188-221): iterate `curpos = 0, hop, 2*hop, ...`
while `curpos < nsamp - nfft`, producing one row per processed position. -/
def runPv (frameF : ℤ → List ℚ × List ℚ × List ℚ) (nsamp nfft sr hop : ℤ)
    (npeaks : ℕ) : List PVRow :=
  runPvLoop frameF npeaks nfft sr (nsamp - nfft) hop (nsamp - nfft).toNat 0

/-- PV.calc_pv_frame (source lines 144-186), with the spectral quantities at
each bin abstracted as input functions: `dphAt b` is the phase difference
`np.angle(frat[b])`, `phAt b` is `np.angle(fx[b])`, and `magAt b` is the
local RMS magnitude around bin b.  The peak finder is external; `pk` is the
bin list it returns.  A peak is kept only when its resolved frequency is
positive. -/
def calcPvFrameFree (sr nfft hop : ℤ) (pk : List ℤ)
    (dphAt phAt magAt : ℤ → ℚ) : List ℚ × List ℚ × List ℚ :=
  pk.foldl
    (fun acc nbin =>
      let freq := dphase2freq sr nfft hop (dphAt nbin) nbin
      if 0 < freq then
        (acc.1 ++ [freq], acc.2.1 ++ [magAt nbin], acc.2.2 ++ [phAt nbin])
      else acc)
    ([], [], [])

/-- np.arange over rationals: `start + k*step` for
`k < max 0 ⌈(stop - start)/step⌉` (np.arange raises on step = 0; no use in
the model has step 0). -/
def arangeQ (start stop step : ℚ) : List ℚ :=
  if step = 0 then []
  else (List.range (max 0 ⌈(stop - start) / step⌉).toNat).map
    (fun k : ℕ => start + (k : ℚ) * step)

/-- Candidate harmonic bins of PVHarmonic.calc_pv_frame:
`bins = np.round(np.arange(f0bin, nfft2 - 1, f0bin))` with
`f0bin = f0/sr*nfft`. -/
def harmBins (sr nfft : ℤ) (f0 : ℚ) : List ℤ :=
  (arangeQ (f0 / (sr : ℚ) * (nfft : ℚ)) ((Int.fdiv nfft 2 : ℤ) - 1)
    (f0 / (sr : ℚ) * (nfft : ℚ))).map npRound

/-- Loop body of PVHarmonic.calc_pv_frame (source lines 332-354): for each
candidate bin, optionally re-centre overtone k > 0 on the measured
fundamental (`corrbin = f[0]/sr*nfft*(ipk+1)` when `f[0] > fmin`, accepted
when `corrbin < nfft2 - 1` via `int(round(corrbin))`), then append the
resolved frequency, magnitude and phase unconditionally. -/
def harmLoop (sr nfft hop : ℤ) (fmin : ℚ) (dphAt phAt magAt : ℤ → ℚ) :
    List ℤ → ℕ → List ℚ × List ℚ × List ℚ → List ℚ × List ℚ × List ℚ
  | [], _, acc => acc
  | nbin :: rest, ipk, acc =>
      let f0v := acc.1.headD 0
      let nbin2 :=
        if 0 < ipk ∧ fmin < f0v then
          let corrbin := f0v / (sr : ℚ) * (nfft : ℚ) * ((ipk : ℚ) + 1)
          if corrbin < ((Int.fdiv nfft 2 : ℤ) : ℚ) - 1 then pyRound corrbin
          else nbin
        else nbin
      let freq := dphase2freq sr nfft hop (dphAt nbin2) nbin2
      harmLoop sr nfft hop fmin dphAt phAt magAt rest (ipk + 1)
        (acc.1 ++ [freq], acc.2.1 ++ [magAt nbin2], acc.2.2 ++ [phAt nbin2])

/-- PVHarmonic.calc_pv_frame (source lines 310-357), with the spectral
quantities abstracted as in calcPvFrameFree; fmin = 30.0 from
PVHarmonic.__init__. -/
def calcPvFrameHarm (sr nfft hop : ℤ) (f0 : ℚ)
    (dphAt phAt magAt : ℤ → ℚ) : List ℚ × List ℚ × List ℚ :=
  harmLoop sr nfft hop 30 dphAt phAt magAt (harmBins sr nfft f0) 0 ([], [], [])

/-- Python min() over a nonempty list (0 on [], never queried there in the
model). -/
def pyMinQ : List ℚ → ℚ
  | [] => 0
  | x :: xs => xs.foldl min x

/-- Python max() over a nonempty list of rationals. -/
def pyMaxQ : List ℚ → ℚ
  | [] => 0
  | x :: xs => xs.foldl max x

/-- Python max() over a nonempty list of integers, as in
`max(self.end)` (raises ValueError on an empty list; callers model that
case separately). -/
def pyMaxI : List ℤ → ℤ
  | [] => 0
  | x :: xs => xs.foldl max x

/-- Placement data of RegPartial.synth (source lines 504-536): the sample
offset `(start_idx - 1)*hop` and the sample count of the synthesised
waveform.  The waveform samples themselves (linear interpolation, cumulative
phase, cosine) are real-valued and do not affect buffer sizes.  Errors:
`np.argmax(self.mag)` raises on an empty magnitude list, `self.ph[iref]`
and `ffr[0]` raise when the phase or frequency series is too short, and
`ph[sref]` raises when the reference sample falls outside the synthesised
range.  `tmin = min(tfr) - hop/sr` and `tmax = max(tfr) + hop/sr` use
Python 2 integer division for `hop/sr`, and the sample grid is
`np.arange(round(tmin*sr), round(tmax*sr))`.  The frame-time grid
`tfr = (start_idx - 1 + np.arange(len(f)+2)) * float(hop)/sr`: -/
def synthTfr (p : RegPart) (sr hop : ℤ) : List ℚ :=
  (List.range (p.f.length + 2)).map
    (fun k : ℕ => ((p.start_idx - 1 + (k : ℤ) : ℤ) : ℚ) * ((hop : ℚ) / (sr : ℚ)))

/-- Sample count of the waveform RegPartial.synth produces:
`np.arange(round(tmin*sr), round(tmax*sr))` with
`tmin = min(tfr) - hop/sr` and `tmax = max(tfr) + hop/sr` (Python 2 integer
division for `hop/sr`). -/
def synthWl (p : RegPart) (sr hop : ℤ) : ℕ :=
  (pyRound ((pyMaxQ (synthTfr p sr hop) + ((Int.fdiv hop sr : ℤ) : ℚ)) * (sr : ℚ)) -
    pyRound ((pyMinQ (synthTfr p sr hop) - ((Int.fdiv hop sr : ℤ) : ℚ)) * (sr : ℚ))).toNat

/-- Placement data of RegPartial.synth: the sample offset
`(start_idx - 1)*hop` and the sample count, with the error cases listed
above checked in source order. -/
def regPartSynthMeta (p : RegPart) (sr hop : ℤ) : Except Unit (ℤ × ℕ) :=
  if p.mag.length = 0 then .error ()
  else if p.ph.length ≤ argmaxList p.mag then .error ()
  else if p.f.length = 0 then .error ()
  else
    let sref := ((argmaxList p.mag : ℤ) + 1) * hop
    let wl := synthWl p sr hop
    if -(wl : ℤ) ≤ sref ∧ sref < (wl : ℤ) then .ok ((p.start_idx - 1) * hop, wl)
    else .error ()

/-- The overlap-add loop of SinSum.synth: for each track, place its
waveform at its offset when the offset is non-negative;
`w[spl_st:spl_end] += wi` raises a broadcast ValueError when the clipped
slice of the output buffer is shorter than the track's waveform. -/
def synthGo (sr hop wlenZ : ℤ) : List RegPart → Except Unit ℕ
  | [] => .ok wlenZ.toNat
  | p :: rest =>
      match regPartSynthMeta p sr hop with
      | .error () => .error ()
      | .ok (splSt, wl) =>
          if 0 ≤ splSt then
            if min wlenZ (splSt + (wl : ℤ)) - min wlenZ splSt = (wl : ℤ) then
              synthGo sr hop wlenZ rest
            else .error ()
          else synthGo sr hop wlenZ rest

/-- SinSum.synth (source lines 772-779): allocate
`w = np.zeros((max(self.end)+1)*hop)` — `max` raises on an empty track set
and `np.zeros` raises on a negative size — then overlap-add every track.
The model returns the length of the produced waveform. -/
def SinSum.synth (ss : SinSum) (sr hop : ℤ) : Except Unit ℕ :=
  if ss.end_.length = 0 then .error ()
  else
    let wlenZ := (pyMaxI ss.end_ + 1) * hop
    if wlenZ < 0 then .error ()
    else synthGo sr hop wlenZ ss.parts

lemma npAbs_eq_abs (q : ℚ) : npAbs q = |q| := by
  unfold npAbs
  rcases lt_or_le q 0 with h | h
  · rw [if_pos h, abs_of_neg h]
  · rw [if_neg (not_lt.mpr h), abs_of_nonneg h]

lemma pyFilter_eq_filter {α : Type} (pred : α → Prop) [DecidablePred pred]
    (l : List α) : pyFilter pred l = l.filter (fun a => decide (pred a)) := by
  induction l with
  | nil => rfl
  | cons x xs ih =>
      by_cases h : pred x <;> simp [pyFilter, List.filter_cons, h, ih]

/-- C9: `dpitch2st(f, f) = 0` for every positive f, and for fixed positive f1
the distance `dpitch2st(f1, f2)` is strictly increasing in the ratio f2/f1. -/
theorem c9_dpitch2st_zero_and_monotone :
    (∀ f : ℚ, 0 < f → dpitch2st f f = 0) ∧
    (∀ f1 f2 f3 : ℚ, 0 < f1 → f2 / f1 < f3 / f1 → dpitch2st f1 f2 < dpitch2st f1 f3) := by
  constructor
  · intro f hf
    unfold dpitch2st
    rw [div_self (ne_of_gt hf)]
    ring
  · intro f1 f2 f3 _ hr
    unfold dpitch2st
    have h17 : (0:ℚ) < 17312/1000 := by norm_num
    have := mul_lt_mul_of_pos_left (sub_lt_sub_right hr 1) h17
    linarith

/-- Witness for c9_dpitch2st_zero_and_monotone at f = 3 and ratios 4/3 < 5/3. -/
theorem c9_witness : dpitch2st 3 3 = 0 ∧ dpitch2st 3 4 < dpitch2st 3 5 :=
  ⟨c9_dpitch2st_zero_and_monotone.1 3 (by norm_num),
   c9_dpitch2st_zero_and_monotone.2 3 4 5 (by norm_num) (by norm_num)⟩

/-- C8: the peak sequence processed by the add_frame matching loop is a
permutation of the input entries surviving the positivity filter, arranged
in descending magnitude order. -/
theorem c8_add_frame_filter_and_sort (f mag ph : List ℚ) :
    (processedPeaks f mag ph).Perm (pyFilter peakPos (zip3Peaks f mag ph)) ∧
    List.Sorted magGE (processedPeaks f mag ph) := by
  constructor
  · rw [processedPeaks, pyFilter_eq_filter, pyFilter_eq_filter]
    exact (List.perm_insertionSort magGE (zip3Peaks f mag ph)).filter _
  · rw [processedPeaks, pyFilter_eq_filter]
    exact (List.sorted_insertionSort magGE (zip3Peaks f mag ph)).filter _

/-- C5 counterexample: a track spanning exactly frame 0 (start 0, one stored
point).  Queried at frame 1 — after its end — both accessors raise an
IndexError (`self.f[relidx]` with relidx past the series) instead of
returning the NaN sentinel the claim promises for every out-of-range frame. -/
theorem c5_counterexample_after_end :
    RegPart.get_freq_at_frame ⟨0, [440], [1], [0]⟩ 1 = PyVal.err ∧
    RegPart.get_mag_at_frame ⟨0, [440], [1], [0]⟩ 1 = PyVal.err := by
  constructor <;> rfl

/-- C5 amended: queries strictly before a track's start return the NaN
sentinel; queries at or after the start but beyond the stored series raise
an IndexError rather than returning NaN. -/
theorem c5_query_before_start_nan_after_end_err (p : RegPart) (fr : ℤ) :
    (fr < p.start_idx →
      p.get_freq_at_frame fr = PyVal.nan ∧ p.get_mag_at_frame fr = PyVal.nan) ∧
    (p.start_idx ≤ fr → p.f.length ≤ (fr - p.start_idx).toNat →
      p.get_freq_at_frame fr = PyVal.err) ∧
    (p.start_idx ≤ fr → p.mag.length ≤ (fr - p.start_idx).toNat →
      p.get_mag_at_frame fr = PyVal.err) := by
  refine ⟨fun h => ?_, fun h hlen => ?_, fun h hlen => ?_⟩
  · have hneg : ¬ (0 ≤ fr - p.start_idx) := by omega
    constructor
    · rw [RegPart.get_freq_at_frame]
      simp only [if_neg hneg]
    · rw [RegPart.get_mag_at_frame]
      simp only [if_neg hneg]
  · have hpos : 0 ≤ fr - p.start_idx := by omega
    rw [RegPart.get_freq_at_frame]
    simp only [if_pos hpos, List.get?_eq_none.mpr hlen]
  · have hpos : 0 ≤ fr - p.start_idx := by omega
    rw [RegPart.get_mag_at_frame]
    simp only [if_pos hpos, List.get?_eq_none.mpr hlen]

/-- Witness for c5_query_before_start_nan_after_end_err: a track starting at
frame 5 queried at frame 3 yields the NaN sentinel. -/
theorem c5_witness :
    RegPart.get_freq_at_frame ⟨5, [1, 2], [3, 4], [0, 0]⟩ 3 = PyVal.nan ∧
    RegPart.get_mag_at_frame ⟨5, [1, 2], [3, 4], [0, 0]⟩ 3 = PyVal.nan :=
  (c5_query_before_start_nan_after_end_err ⟨5, [1, 2], [3, 4], [0, 0]⟩ 3).1 (by norm_num)

lemma int_fdiv_two_nonneg (n : ℤ) (h : 0 ≤ n) : 0 ≤ n.fdiv 2 :=
  Int.fdiv_nonneg h (by norm_num)

lemma int_fdiv_two_neg (n : ℤ) (h : n < 0) : n.fdiv 2 < 0 :=
  Int.fdiv_neg' h (by norm_num)

/-- C6 counterexample: constructing the analyser with hop = 0 (a non-positive
hop) succeeds: PV.__init__ performs no configuration validation, and
`dt = float(0)/float(44100)` is an ordinary division. -/
theorem c6_counterexample_zero_hop_accepted :
    ∃ cfg, pvInit [] 44100 1024 (some 0) 20 (5/1000) onesWind = .ok cfg :=
  ⟨_, rfl⟩

/-- C6 amended: construction fails exactly when nfft ≤ 0 (division by zero
computing fstep for nfft = 0, np.zeros of a negative size for nfft < 0) or
when sr = 0 (division by zero computing dt).  Non-positive hop values and
negative sample rates are accepted without any error. -/
theorem c6_init_fails_iff (x : List ℚ) (sr nfft : ℤ) (hop : Option ℤ)
    (npks : ℕ) (pkthresh : ℚ) (wind : ℤ → List ℚ) :
    (∃ cfg, pvInit x sr nfft hop npks pkthresh wind = .ok cfg) ↔
      (0 < nfft ∧ sr ≠ 0) := by
  rw [pvInit]
  constructor
  · rintro ⟨cfg, hcfg⟩
    by_cases h1 : nfft = 0
    · rw [if_pos h1] at hcfg
      exact absurd hcfg (by simp)
    · rw [if_neg h1] at hcfg
      by_cases h2 : sr = 0
      · rw [if_pos h2] at hcfg
        exact absurd hcfg (by simp)
      · rw [if_neg h2] at hcfg
        by_cases h3 : Int.fdiv nfft 2 < 0
        · rw [if_pos h3] at hcfg
          exact absurd hcfg (by simp)
        · refine ⟨?_, h2⟩
          rcases lt_trichotomy nfft 0 with h | h | h
          · exact absurd (int_fdiv_two_neg nfft h) h3
          · exact absurd h h1
          · exact h
  · rintro ⟨h1, h2⟩
    rw [if_neg (by omega), if_neg h2, if_neg (not_lt.mpr (int_fdiv_two_nonneg nfft (by omega)))]
    exact ⟨_, rfl⟩

/-- C7: dphase2freq always returns one of the three unwrap candidates
`(dph + wfbin[b] + k*2π)/(2π*dt)` for k in {-1, 0, 1}, where
`wfbin[b] = round(fbin[b]*dt)*2π`, and the returned candidate minimises the
absolute distance between its frequency and the bin's central frequency. -/
theorem c7_dphase2freq_nearest_candidate (sr nfft hop : ℤ) (dph : ℚ) (nbin : ℤ) :
    (∃ k ∈ ([-1, 0, 1] : List ℤ),
      dphase2freq sr nfft hop dph nbin =
        (dph + (npRound (fbinD sr nfft nbin * dtD sr hop) : ℚ) * pi2 + (k : ℚ) * pi2) /
          (pi2 * dtD sr hop)) ∧
    (∀ k ∈ ([-1, 0, 1] : List ℤ),
      |fbinD sr nfft nbin - dphase2freq sr nfft hop dph nbin| ≤
        |fbinD sr nfft nbin -
          (dph + (npRound (fbinD sr nfft nbin * dtD sr hop) : ℚ) * pi2 + (k : ℚ) * pi2) /
            (pi2 * dtD sr hop)|) := by
  have hq : ∀ c : ℚ,
      (dph + (npRound (fbinD sr nfft nbin * dtD sr hop) : ℚ) * pi2 + c * pi2) /
          (pi2 * dtD sr hop) =
        (dph + wfbinD sr nfft hop nbin + pi2 * c) / dtD sr hop / pi2 := by
    intro c
    rw [wfbinD]
    ring
  simp only [dphase2freq, List.map, argminList, argminAux]
  split_ifs with h1 h2 h2
  · simp only [List.getD, List.get?, Option.getD_some]
    constructor
    · exact ⟨1, by norm_num, by rw [show ((1:ℤ):ℚ) = 1 by norm_num, hq]⟩
    · intro k hk
      simp only [List.mem_cons, List.not_mem_nil, or_false] at hk
      rcases hk with rfl | rfl | rfl
      · rw [show ((-1:ℤ):ℚ) = -1 by norm_num, hq]
        try simp only [← npAbs_eq_abs]
        try linarith
      · rw [show ((0:ℤ):ℚ) = 0 by norm_num, hq]
        try simp only [← npAbs_eq_abs]
        try linarith
      · rw [show ((1:ℤ):ℚ) = 1 by norm_num, hq]
        try simp only [← npAbs_eq_abs]
        try linarith
  · simp only [List.getD, List.get?, Option.getD_some]
    constructor
    · exact ⟨0, by norm_num, by rw [show ((0:ℤ):ℚ) = 0 by norm_num, hq]⟩
    · intro k hk
      simp only [List.mem_cons, List.not_mem_nil, or_false] at hk
      rcases hk with rfl | rfl | rfl
      · rw [show ((-1:ℤ):ℚ) = -1 by norm_num, hq]
        try simp only [← npAbs_eq_abs]
        try linarith
      · rw [show ((0:ℤ):ℚ) = 0 by norm_num, hq]
        try simp only [← npAbs_eq_abs]
        try linarith
      · rw [show ((1:ℤ):ℚ) = 1 by norm_num, hq]
        try simp only [← npAbs_eq_abs]
        try linarith
  · simp only [List.getD, List.get?, Option.getD_some]
    constructor
    · exact ⟨1, by norm_num, by rw [show ((1:ℤ):ℚ) = 1 by norm_num, hq]⟩
    · intro k hk
      simp only [List.mem_cons, List.not_mem_nil, or_false] at hk
      rcases hk with rfl | rfl | rfl
      · rw [show ((-1:ℤ):ℚ) = -1 by norm_num, hq]
        try simp only [← npAbs_eq_abs]
        try linarith
      · rw [show ((0:ℤ):ℚ) = 0 by norm_num, hq]
        try simp only [← npAbs_eq_abs]
        try linarith
      · rw [show ((1:ℤ):ℚ) = 1 by norm_num, hq]
        try simp only [← npAbs_eq_abs]
        try linarith
  · simp only [List.getD, List.get?, Option.getD_some]
    constructor
    · exact ⟨-1, by norm_num, by rw [show ((-1:ℤ):ℚ) = -1 by norm_num, hq]⟩
    · intro k hk
      simp only [List.mem_cons, List.not_mem_nil, or_false] at hk
      rcases hk with rfl | rfl | rfl
      · rw [show ((-1:ℤ):ℚ) = -1 by norm_num, hq]
        try simp only [← npAbs_eq_abs]
        try linarith
      · rw [show ((0:ℤ):ℚ) = 0 by norm_num, hq]
        try simp only [← npAbs_eq_abs]
        try linarith
      · rw [show ((1:ℤ):ℚ) = 1 by norm_num, hq]
        try simp only [← npAbs_eq_abs]
        try linarith

lemma harmLoop_lengths (sr nfft hop : ℤ) (fmin : ℚ) (dphAt phAt magAt : ℤ → ℚ) :
    ∀ (bins : List ℤ) (ipk : ℕ) (acc : List ℚ × List ℚ × List ℚ),
      (harmLoop sr nfft hop fmin dphAt phAt magAt bins ipk acc).1.length
          = acc.1.length + bins.length ∧
      (harmLoop sr nfft hop fmin dphAt phAt magAt bins ipk acc).2.1.length
          = acc.2.1.length + bins.length ∧
      (harmLoop sr nfft hop fmin dphAt phAt magAt bins ipk acc).2.2.length
          = acc.2.2.length + bins.length := by
  intro bins
  induction bins with
  | nil => intro ipk acc; simp [harmLoop]
  | cons nbin rest ih =>
      intro ipk acc
      rw [harmLoop]
      refine ⟨?_, ?_, ?_⟩ <;>
        simp only [(ih (ipk + 1) _).1, (ih (ipk + 1) _).2.1, (ih (ipk + 1) _).2.2,
          List.length_append, List.length_cons, List.length_nil] <;>
        omega

lemma calcPvFrameFree_fold_pos (sr nfft hop : ℤ) (dphAt phAt magAt : ℤ → ℚ) :
    ∀ (pk : List ℤ) (acc : List ℚ × List ℚ × List ℚ), (∀ x ∈ acc.1, 0 < x) →
      ∀ x ∈ (pk.foldl (fun acc nbin =>
          let freq := dphase2freq sr nfft hop (dphAt nbin) nbin
          if 0 < freq then
            (acc.1 ++ [freq], acc.2.1 ++ [magAt nbin], acc.2.2 ++ [phAt nbin])
          else acc) acc).1, 0 < x := by
  intro pk
  induction pk with
  | nil =>
      intro acc h x hx
      rw [List.foldl_nil] at hx
      exact h x hx
  | cons nbin rest ih =>
      intro acc h x hx
      rw [List.foldl_cons] at hx
      refine ih _ ?_ x hx
      intro y hy
      dsimp only at hy
      split_ifs at hy with hf
      · rcases List.mem_append.mp hy with hy2 | hy2
        · exact h y hy2
        · rw [List.mem_singleton.mp hy2]
          exact hf
      · exact h y hy

/-- C10: the harmonic frame variant appends one frequency, one magnitude and
one phase entry per candidate harmonic bin unconditionally — in contrast to
the free-peak variant, whose every output frequency is positive — and at a
concrete input the harmonic output retains a negative resolved frequency. -/
theorem c10_harmonic_keeps_nonpositive_freqs :
    (∀ (sr nfft hop : ℤ) (f0 : ℚ) (dphAt phAt magAt : ℤ → ℚ),
      (calcPvFrameHarm sr nfft hop f0 dphAt phAt magAt).1.length
          = (harmBins sr nfft f0).length ∧
      (calcPvFrameHarm sr nfft hop f0 dphAt phAt magAt).2.1.length
          = (harmBins sr nfft f0).length ∧
      (calcPvFrameHarm sr nfft hop f0 dphAt phAt magAt).2.2.length
          = (harmBins sr nfft f0).length) ∧
    (∀ (sr nfft hop : ℤ) (pk : List ℤ) (dphAt phAt magAt : ℤ → ℚ),
      ∀ x ∈ (calcPvFrameFree sr nfft hop pk dphAt phAt magAt).1, 0 < x) ∧
    ((calcPvFrameHarm 100 8 50 25 (fun _ => -14 * pi2) (fun _ => 0)
        (fun _ => 1)).1 = [-2] ∧ ¬ (0 : ℚ) < -2) := by
  refine ⟨?_, ?_, ?_, by norm_num⟩
  · intro sr nfft hop f0 dphAt phAt magAt
    have h := harmLoop_lengths sr nfft hop 30 dphAt phAt magAt
      (harmBins sr nfft f0) 0 ([], [], [])
    simpa [calcPvFrameHarm] using h
  · intro sr nfft hop pk dphAt phAt magAt x hx
    exact calcPvFrameFree_fold_pos sr nfft hop dphAt phAt magAt pk ([], [], [])
      (by intro y hy; exact absurd hy (List.not_mem_nil y)) x hx
  · have hceil : ⌈((1:ℚ))/2⌉ = 1 := by
      rw [Int.ceil_eq_iff]; norm_num
    have hfloor : ⌊(25:ℚ)/2⌋ = 12 := by
      rw [Int.floor_eq_iff]; norm_num
    have hbins : harmBins 100 8 25 = [2] := by
      norm_num [harmBins, arangeQ, Int.fdiv, hceil, max_def, List.range_succ,
        npRound, Int.floor_ofNat]
    norm_num [calcPvFrameHarm, hbins, harmLoop, dphase2freq,
      wfbinD, fbinD, fstepD, dtD, npRound, npAbs, pi2, argminList, argminAux,
      List.getD, Int.fdiv, Int.even_iff, hfloor]

/-- Witness for c10_harmonic_keeps_nonpositive_freqs: the free-variant
positivity part applied at bin list [2] with zero phase differences, whose
single resolved frequency is 24. -/
theorem c10_witness : (0:ℚ) < 24 := by
  have hfloor : ⌊(25:ℚ)/2⌋ = 12 := by
    rw [Int.floor_eq_iff]; norm_num
  have hfract : Int.fract ((25:ℚ)/2) = 1/2 := by
    rw [Int.fract, hfloor]
    norm_num
  refine c10_harmonic_keeps_nonpositive_freqs.2.1 100 8 50 [2]
    (fun _ => 0) (fun _ => 0) (fun _ => 1) 24 ?_
  norm_num [calcPvFrameFree, dphase2freq, wfbinD, fbinD, fstepD, dtD,
    npRound, npAbs, pi2, argminList, argminAux, List.getD, Int.even_iff,
    hfloor, hfract]

lemma padTo_length (n : ℕ) (l : List ℚ) : (padTo n l).length = n := by
  simp only [padTo, List.length_append, List.length_take, List.length_replicate]
  omega

lemma runPvLoop_mem (frameF : ℤ → List ℚ × List ℚ × List ℚ) (npeaks : ℕ)
    (nfft sr maxpos hop : ℤ) (hhop : 0 < hop) :
    ∀ (fuel : ℕ) (cur pos : ℤ), maxpos - cur ≤ (fuel : ℤ) →
      ((∃ r ∈ runPvLoop frameF npeaks nfft sr maxpos hop fuel cur, r.pos = pos) ↔
        ((∃ k : ℕ, pos = cur + (k : ℤ) * hop) ∧ pos < maxpos)) := by
  intro fuel
  induction fuel with
  | zero =>
      intro cur pos hfuel
      constructor
      · rintro ⟨r, hr, -⟩
        exact absurd hr (List.not_mem_nil r)
      · rintro ⟨⟨k, rfl⟩, hlt⟩
        have hk : 0 ≤ (k : ℤ) * hop := mul_nonneg (Int.ofNat_nonneg k) hhop.le
        push_cast at hfuel
        linarith
  | succ fuel ih =>
      intro cur pos hfuel
      rw [runPvLoop]
      by_cases hc : cur < maxpos
      · rw [if_pos hc]
        have hrec := ih (cur + hop) pos (by push_cast at hfuel ⊢; linarith)
        simp only [List.mem_cons, exists_eq_or_imp] at *
        rw [hrec]
        constructor
        · rintro (rfl | ⟨⟨k, rfl⟩, hlt⟩)
          · exact ⟨⟨0, by push_cast; ring⟩, hc⟩
          · exact ⟨⟨k + 1, by push_cast; ring⟩, hlt⟩
        · rintro ⟨⟨k, rfl⟩, hlt⟩
          cases k with
          | zero => left; push_cast; ring
          | succ k2 => right; exact ⟨⟨k2, by push_cast; ring⟩, hlt⟩
      · rw [if_neg hc]
        constructor
        · rintro ⟨r, hr, -⟩
          exact absurd hr (List.not_mem_nil r)
        · rintro ⟨⟨k, rfl⟩, hlt⟩
          have hk : 0 ≤ (k : ℤ) * hop := mul_nonneg (Int.ofNat_nonneg k) hhop.le
          linarith

lemma runPvLoop_row_lengths (frameF : ℤ → List ℚ × List ℚ × List ℚ) (npeaks : ℕ)
    (nfft sr maxpos hop : ℤ) :
    ∀ (fuel : ℕ) (cur : ℤ) (r : PVRow),
      r ∈ runPvLoop frameF npeaks nfft sr maxpos hop fuel cur →
      r.f.length = npeaks ∧ r.mag.length = npeaks ∧ r.ph.length = npeaks := by
  intro fuel
  induction fuel with
  | zero =>
      intro cur r hr
      exact absurd hr (List.not_mem_nil r)
  | succ fuel ih =>
      intro cur r hr
      rw [runPvLoop] at hr
      by_cases hc : cur < maxpos
      · rw [if_pos hc] at hr
        rcases List.mem_cons.mp hr with rfl | hr2
        · exact ⟨padTo_length _ _, padTo_length _ _, padTo_length _ _⟩
        · exact ih (cur + hop) r hr2
      · rw [if_neg hc] at hr
        exact absurd hr (List.not_mem_nil r)

/-- C4 amended: for a positive hop, run_pv produces one row exactly at the
positions `k*hop` with `position + nfft` strictly less than the signal
length (the source loop tests `curpos < nsamp - nfft`, so a frame whose
window ends exactly at the signal's last sample is not processed), and every
produced row carries npeaks slots in each of its three arrays. -/
theorem c4_runpv_positions (frameF : ℤ → List ℚ × List ℚ × List ℚ)
    (nsamp nfft sr hop : ℤ) (npeaks : ℕ) (pos : ℤ) (hhop : 0 < hop) :
    ((∃ r ∈ runPv frameF nsamp nfft sr hop npeaks, r.pos = pos) ↔
      ((∃ k : ℕ, pos = (k : ℤ) * hop) ∧ pos + nfft < nsamp)) ∧
    (∀ r ∈ runPv frameF nsamp nfft sr hop npeaks,
      r.f.length = npeaks ∧ r.mag.length = npeaks ∧ r.ph.length = npeaks) := by
  constructor
  · rw [runPv, runPvLoop_mem frameF npeaks nfft sr (nsamp - nfft) hop hhop
      (nsamp - nfft).toNat 0 pos (by omega)]
    constructor
    · rintro ⟨⟨k, hk⟩, hlt⟩
      exact ⟨⟨k, by omega⟩, by omega⟩
    · rintro ⟨⟨k, hk⟩, hlt⟩
      exact ⟨⟨k, by omega⟩, by omega⟩
  · intro r hr
    exact runPvLoop_row_lengths frameF npeaks nfft sr (nsamp - nfft) hop
      (nsamp - nfft).toNat 0 r hr

/-- Witness for c4_runpv_positions: with nsamp = 10, nfft = 4, hop = 2 the
position 2 = 1*hop satisfies 2 + 4 < 10 and is processed. -/
theorem c4_witness :
    ∃ r ∈ runPv (fun _ => ([], [], [])) 10 4 100 2 3, r.pos = 2 :=
  (c4_runpv_positions (fun _ => ([], [], [])) 10 4 100 2 3 2 (by norm_num)).1.mpr
    ⟨⟨1, by norm_num⟩, by norm_num⟩

/-- C4 counterexample: with nsamp = 4 = nfft, position 0 satisfies the
claim's condition `position + nfft ≤ signal length`, yet run_pv processes no
frame at all: the loop condition is the strict `curpos < nsamp - nfft`. -/
theorem c4_counterexample_boundary_frame_skipped :
    runPv (fun _ => ([], [], [])) 4 4 100 2 20 = [] ∧ (0:ℤ) + 4 ≤ 4 := by
  constructor
  · rfl
  · norm_num

lemma argmaxAux_bound : ∀ (xs : List ℚ) (best : ℕ) (bestv : ℚ) (i : ℕ),
    argmaxAux xs best bestv i = best ∨
      (i ≤ argmaxAux xs best bestv i ∧ argmaxAux xs best bestv i < i + xs.length) := by
  intro xs
  induction xs with
  | nil => intro best bestv i; left; rfl
  | cons x rest ih =>
      intro best bestv i
      rw [argmaxAux]
      by_cases h : bestv < x
      · rw [if_pos h]
        right
        rcases ih i x (i + 1) with h2 | ⟨h2, h3⟩
        · rw [h2]
          simp only [List.length_cons]
          omega
        · simp only [List.length_cons]
          omega
      · rw [if_neg h]
        rcases ih best bestv (i + 1) with h2 | ⟨h2, h3⟩
        · left; exact h2
        · right
          simp only [List.length_cons]
          omega

lemma argmaxList_lt (l : List ℚ) (h : l.length ≠ 0) : argmaxList l < l.length := by
  match l, h with
  | x :: xs, _ =>
      rw [argmaxList]
      rcases argmaxAux_bound xs 0 x 1 with h2 | ⟨h2, h3⟩
      · rw [h2]; simp
      · simp only [List.length_cons]; omega

lemma foldl_min_head : ∀ (xs : List ℚ) (x : ℚ), (∀ y ∈ xs, x ≤ y) →
    xs.foldl min x = x := by
  intro xs
  induction xs with
  | nil => intro x _; rfl
  | cons y ys ih =>
      intro x h
      rw [List.foldl_cons, min_eq_left (h y (List.mem_cons_self y ys))]
      exact ih x (fun z hz => h z (List.mem_cons_of_mem y hz))

lemma foldl_max_eq : ∀ (xs : List ℚ) (x m : ℚ), (m = x ∨ m ∈ xs) → x ≤ m →
    (∀ y ∈ xs, y ≤ m) → xs.foldl max x = m := by
  intro xs
  induction xs with
  | nil =>
      intro x m hmem _ _
      rcases hmem with rfl | hm
      · rfl
      · exact absurd hm (List.not_mem_nil m)
  | cons y ys ih =>
      intro x m hmem hx hub
      rw [List.foldl_cons]
      have hy : y ≤ m := hub y (List.mem_cons_self y ys)
      refine ih (max x y) m ?_ (max_le hx hy) (fun z hz => hub z (List.mem_cons_of_mem y hz))
      rcases hmem with rfl | hm
      · left
        exact (max_eq_left hy).symm
      · rcases List.mem_cons.mp hm with rfl | hm2
        · left
          exact (max_eq_right hx).symm
        · right
          exact hm2

lemma pyRound_intCast (n : ℤ) : pyRound ((n : ℤ) : ℚ) = n := by
  rw [pyRound]
  by_cases h : (0 : ℚ) ≤ (n : ℚ)
  · rw [if_pos h, add_comm, Int.floor_add_int]
    norm_num
  · rw [if_neg h]
    have : -((n : ℤ) : ℚ) = ((-n : ℤ) : ℚ) := by push_cast; ring
    rw [this, add_comm, Int.floor_add_int]
    norm_num

lemma pyMinQ_map_range (n : ℕ) (a d : ℚ) (hd : 0 ≤ d) :
    pyMinQ ((List.range (n + 1)).map (fun k : ℕ => a + (k : ℚ) * d)) = a := by
  rw [List.range_succ_eq_map, List.map_cons, List.map_map]
  have h0 : a + ((0 : ℕ) : ℚ) * d = a := by norm_num
  rw [pyMinQ, h0]
  apply foldl_min_head
  intro y hy
  rcases List.mem_map.mp hy with ⟨j, -, rfl⟩
  have : (0 : ℚ) ≤ ((j + 1 : ℕ) : ℚ) * d := mul_nonneg (by positivity) hd
  simp only [Function.comp]
  push_cast at this ⊢
  linarith

lemma pyMaxQ_map_range (n : ℕ) (a d : ℚ) (hd : 0 ≤ d) :
    pyMaxQ ((List.range (n + 1)).map (fun k : ℕ => a + (k : ℚ) * d)) = a + (n : ℚ) * d := by
  rw [List.range_succ_eq_map, List.map_cons, List.map_map]
  have h0 : a + ((0 : ℕ) : ℚ) * d = a := by norm_num
  rw [pyMaxQ, h0]
  apply foldl_max_eq
  · cases n with
    | zero => left; norm_num
    | succ n2 =>
        right
        refine List.mem_map.mpr ⟨n2, List.mem_range.mpr (by omega), ?_⟩
        simp only [Function.comp]
        try push_cast
        try ring
  · have : (0 : ℚ) ≤ (n : ℚ) * d := mul_nonneg (by positivity) hd
    linarith
  · intro y hy
    rcases List.mem_map.mp hy with ⟨j, hj, rfl⟩
    have hjn : (j : ℚ) + 1 ≤ (n : ℚ) := by
      exact_mod_cast Nat.succ_le_of_lt (List.mem_range.mp hj)
    have := mul_le_mul_of_nonneg_right hjn hd
    simp only [Function.comp]
    push_cast
    linarith

lemma synthWl_eq (p : RegPart) (sr hop : ℤ) (hhop : 0 < hop) (hsr : hop < sr) :
    synthWl p sr hop = (((p.f.length : ℤ) + 1) * hop).toNat := by
  have hs0 : (0:ℤ) < sr := hhop.trans hsr
  have hsQ : (0:ℚ) < (sr:ℚ) := by exact_mod_cast hs0
  have hdQ : (0:ℚ) ≤ (hop:ℚ) / (sr:ℚ) :=
    div_nonneg (by exact_mod_cast hhop.le) hsQ.le
  have htfr : synthTfr p sr hop =
      (List.range (p.f.length + 1 + 1)).map
        (fun k : ℕ => ((p.start_idx - 1 : ℤ) : ℚ) * ((hop:ℚ)/(sr:ℚ)) +
          (k : ℚ) * ((hop:ℚ)/(sr:ℚ))) := by
    rw [synthTfr, show p.f.length + 2 = p.f.length + 1 + 1 from rfl]
    apply List.map_congr_left
    intro k _
    push_cast
    ring
  have hfdiv : Int.fdiv hop sr = 0 := by
    rw [Int.fdiv_eq_ediv _ hs0.le]
    exact Int.ediv_eq_zero_of_lt hhop.le hsr
  rw [synthWl, htfr, pyMinQ_map_range _ _ _ hdQ, pyMaxQ_map_range _ _ _ hdQ, hfdiv]
  have e1 : (((p.start_idx - 1 : ℤ) : ℚ) * ((hop:ℚ)/(sr:ℚ)) +
        ((p.f.length + 1 : ℕ) : ℚ) * ((hop:ℚ)/(sr:ℚ)) + ((0:ℤ):ℚ)) * (sr:ℚ) =
      (((p.start_idx + p.f.length) * hop : ℤ) : ℚ) := by
    push_cast
    field_simp
    ring
  have e2 : (((p.start_idx - 1 : ℤ) : ℚ) * ((hop:ℚ)/(sr:ℚ)) - ((0:ℤ):ℚ)) * (sr:ℚ) =
      (((p.start_idx - 1) * hop : ℤ) : ℚ) := by
    push_cast
    field_simp
    try ring
  rw [e1, e2, pyRound_intCast, pyRound_intCast]
  congr 1
  ring

lemma regPartSynthMeta_ok (p : RegPart) (sr hop : ℤ)
    (hf : p.f.length ≠ 0) (hm : p.mag.length = p.f.length)
    (hp : p.ph.length = p.f.length) (hhop : 0 < hop) (hsr : hop < sr) :
    regPartSynthMeta p sr hop =
      .ok ((p.start_idx - 1) * hop, (((p.f.length : ℤ) + 1) * hop).toNat) := by
  have hmne : p.mag.length ≠ 0 := by omega
  have hiref : argmaxList p.mag < p.mag.length := argmaxList_lt p.mag hmne
  have hphle : ¬ (p.ph.length ≤ argmaxList p.mag) := by omega
  have hwl := synthWl_eq p sr hop hhop hsr
  have hwlpos : (0:ℤ) ≤ ((p.f.length : ℤ) + 1) * hop :=
    mul_nonneg (by omega) hhop.le
  have hcast : (((((p.f.length : ℤ) + 1) * hop).toNat : ℤ)) =
      ((p.f.length : ℤ) + 1) * hop := Int.toNat_of_nonneg hwlpos
  have hguard : -(((((p.f.length : ℤ) + 1) * hop).toNat : ℤ)) ≤
        ((argmaxList p.mag : ℤ) + 1) * hop ∧
      ((argmaxList p.mag : ℤ) + 1) * hop <
        (((((p.f.length : ℤ) + 1) * hop).toNat : ℤ)) := by
    rw [hcast]
    constructor
    · have h1 : (0:ℤ) ≤ ((argmaxList p.mag : ℤ) + 1) * hop :=
        mul_nonneg (by omega) hhop.le
      linarith
    · have h2 : ((argmaxList p.mag : ℤ) + 1) < ((p.f.length : ℤ) + 1) := by
        omega
      exact mul_lt_mul_of_pos_right h2 hhop
  rw [regPartSynthMeta, if_neg hmne, if_neg hphle, if_neg hf]
  dsimp only
  rw [hwl, if_pos hguard]

lemma synthGo_ok (sr hop wlenZ : ℤ) (hhop : 0 < hop) (hsr : hop < sr) :
    ∀ ps : List RegPart,
      (∀ p ∈ ps, p.f.length ≠ 0 ∧ p.mag.length = p.f.length ∧
        p.ph.length = p.f.length ∧ 0 ≤ p.start_idx ∧
        ((p.start_idx + p.f.length) * hop ≤ wlenZ)) →
      synthGo sr hop wlenZ ps = .ok wlenZ.toNat := by
  intro ps
  induction ps with
  | nil => intro _; rfl
  | cons p rest ih =>
      intro h
      obtain ⟨hf, hm, hp, hst, hbound⟩ := h p (List.mem_cons_self p rest)
      have htail := fun q hq => h q (List.mem_cons_of_mem p hq)
      rw [synthGo, regPartSynthMeta_ok p sr hop hf hm hp hhop hsr]
      dsimp only
      have hwlpos : (0:ℤ) ≤ ((p.f.length : ℤ) + 1) * hop :=
        mul_nonneg (by omega) hhop.le
      have hcast : (((((p.f.length : ℤ) + 1) * hop).toNat : ℤ)) =
          ((p.f.length : ℤ) + 1) * hop := Int.toNat_of_nonneg hwlpos
      by_cases hsp : 0 ≤ (p.start_idx - 1) * hop
      · rw [if_pos hsp]
        have hsum : (p.start_idx - 1) * hop + ((p.f.length : ℤ) + 1) * hop =
            (p.start_idx + p.f.length) * hop := by ring
        have hA : (p.start_idx - 1) * hop ≤ wlenZ := by
          have : (0:ℤ) ≤ ((p.f.length : ℤ) + 1) * hop := hwlpos
          linarith [hbound, hsum]
        have hbroadcast : min wlenZ ((p.start_idx - 1) * hop +
              (((((p.f.length : ℤ) + 1) * hop).toNat : ℤ))) -
            min wlenZ ((p.start_idx - 1) * hop) =
            (((((p.f.length : ℤ) + 1) * hop).toNat : ℤ)) := by
          rw [hcast]
          rw [hsum]
          rw [min_eq_right hbound, min_eq_right hA]
          linarith [hsum]
        rw [if_pos hbroadcast]
        exact ih htail
      · rw [if_neg hsp]
        exact ih htail

/-- C3 counterexample: on a SinSum with no tracks, synth does not return an
empty (or all-zero) buffer — `max(self.end)` raises ValueError on the empty
end-frame list, so the call fails. -/
theorem c3_counterexample_empty_synth_fails :
    (sinSumInit 44100 1024 512).synth 44100 512 = .error () := rfl

/-- C3 amended: when at least one track exists, hop is positive and smaller
than the sample rate, and every track is well formed (nonempty equal-length
series, non-negative start, end within the recorded maximum), synth returns
a buffer of exactly `(max(end) + 1) * hop` samples; with no tracks it fails
instead of returning an empty buffer. -/
theorem c3_synth_length (ss : SinSum) (sr hop : ℤ)
    (hhop : 0 < hop) (hsr : hop < sr) (hend : ss.end_.length ≠ 0)
    (hmax : 0 ≤ pyMaxI ss.end_)
    (hp : ∀ p ∈ ss.parts, p.f.length ≠ 0 ∧ p.mag.length = p.f.length ∧
      p.ph.length = p.f.length ∧ 0 ≤ p.start_idx ∧
      p.start_idx + (p.f.length : ℤ) ≤ pyMaxI ss.end_ + 1) :
    ss.synth sr hop = .ok (((pyMaxI ss.end_ + 1) * hop).toNat) := by
  have hwnonneg : ¬ ((pyMaxI ss.end_ + 1) * hop < 0) :=
    not_lt.mpr (mul_nonneg (by omega) hhop.le)
  rw [SinSum.synth, if_neg hend]
  dsimp only
  rw [if_neg hwnonneg]
  apply synthGo_ok sr hop _ hhop hsr
  intro p hpmem
  obtain ⟨h1, h2, h3, h4, h5⟩ := hp p hpmem
  exact ⟨h1, h2, h3, h4, mul_le_mul_of_nonneg_right h5 hhop.le⟩

/-- Witness for c3_synth_length: a single track at start frame 1 with one
point, end list [1], hop 5, sample rate 10: the buffer has (1+1)*5 = 10
samples. -/
theorem c3_witness :
    SinSum.synth ⟨[⟨1, [100], [2], [0]⟩], [1], [1], 10, 8, 5⟩ 10 5 = .ok 10 := by
  have h := c3_synth_length ⟨[⟨1, [100], [2], [0]⟩], [1], [1], 10, 8, 5⟩ 10 5
    (by norm_num) (by norm_num) (by norm_num)
    (by norm_num [pyMaxI])
    (by
      intro p hpmem
      rcases List.mem_singleton.mp hpmem with rfl
      refine ⟨by norm_num, rfl, rfl, by norm_num, by norm_num [pyMaxI]⟩)
  simpa [pyMaxI] using h

/-- A concrete two-frame run exercising the add_frame matching loop.  Frame 0
opens two tracks, 100 Hz (magnitude 10) and 200 Hz (magnitude 5). -/
def ssDemo1 : SinSum :=
  SinSum.add_frame (sinSumInit 100 1024 512) 0 [100, 200] [10, 5] [0, 0] (1/2)

/-- Frame 1 offers three peaks, 101 Hz (magnitude 9), 201 Hz (magnitude 6)
and 202 Hz (magnitude 5), each within half a semitone of an open track. -/
def ssDemo2 : SinSum :=
  SinSum.add_frame ssDemo1 1 [101, 201, 202] [9, 6, 5] [0, 0, 0] (1/2)

/-- C1: after the frame-1 call, track 1 records start 0 and end 1 but holds
three frequency points (200, 201 and 202), so
`end - start + 1 = 2 ≠ 3 = length of the series`: the statement
`unused[nearest] = False` flips position `nearest` of the full mask although
`nearest` was computed in the filtered candidate view, so the already
claimed track stays available and receives a second point in the same
frame. -/
theorem c1_continuity_invariant_violated :
    (ssDemo2.parts.getD 1 ⟨0, [], [], []⟩).f.length = 3 ∧
    ssDemo2.st.getD 1 0 = 0 ∧ ssDemo2.end_.getD 1 0 = 1 ∧
    ssDemo2.end_.getD 1 0 - ssDemo2.st.getD 1 0 + 1 ≠
      ((ssDemo2.parts.getD 1 ⟨0, [], [], []⟩).f.length : ℤ) := by
  norm_num [ssDemo2, ssDemo1, sinSumInit, SinSum.add_frame, addFrameStep,
    processedPeaks, pyFilter, peakPos, zip3Peaks, List.insertionSort,
    List.orderedInsert, magGE, pairGE, SinSum.getPartsIdxEndingAtFrame,
    List.range_succ, pyGetPart, RegPart.magVal, RegPart.freqVal,
    RegPart.get_mag_at_frame, RegPart.get_freq_at_frame, maskFilter, npAbs,
    dpitch2st, dbconst, argminList, argminAux, SinSum.appendAt,
    SinSum.addEmptyPart, pySet, RegPart.append_point, List.getD, List.set,
    List.replicate, List.foldl, List.zipWith, List.length]

/-- C2: in the single frame-1 add_frame call, open track 1 (200 Hz) receives
both the 201 Hz and the 202 Hz peak: before the call its series is [200],
after it [200, 201, 202].  The mask update `unused[nearest] = False` used the
filtered-view index, so assigning 201 Hz to track 1 failed to exclude it for
the following peak. -/
theorem c2_claimed_track_reused_in_same_frame :
    (ssDemo1.parts.getD 1 ⟨0, [], [], []⟩).f = [200] ∧
    (ssDemo2.parts.getD 1 ⟨0, [], [], []⟩).f = [200, 201, 202] := by
  norm_num [ssDemo2, ssDemo1, sinSumInit, SinSum.add_frame, addFrameStep,
    processedPeaks, pyFilter, peakPos, zip3Peaks, List.insertionSort,
    List.orderedInsert, magGE, pairGE, SinSum.getPartsIdxEndingAtFrame,
    List.range_succ, pyGetPart, RegPart.magVal, RegPart.freqVal,
    RegPart.get_mag_at_frame, RegPart.get_freq_at_frame, maskFilter, npAbs,
    dpitch2st, dbconst, argminList, argminAux, SinSum.appendAt,
    SinSum.addEmptyPart, pySet, RegPart.append_point, List.getD, List.set,
    List.replicate, List.foldl, List.zipWith, List.length]

/-- Witness for c7_dphase2freq_nearest_candidate: minimality at bin 2 of an
8-point analysis at sr = 100, hop = 50, zero phase difference, candidate
k = 0. -/
theorem c7_witness :
    |fbinD 100 8 2 - dphase2freq 100 8 50 0 2| ≤
      |fbinD 100 8 2 -
        ((0:ℚ) + (npRound (fbinD 100 8 2 * dtD 100 50) : ℚ) * pi2 +
          ((0:ℤ) : ℚ) * pi2) / (pi2 * dtD 100 50)| :=
  (c7_dphase2freq_nearest_candidate 100 8 50 0 2).2 0 (by norm_num)
